import Mathlib

/-!
Shallow embedding of the Newton-fractal renderer (src/main.rs).

Numeric model: the program computes with `f32` (via `num::complex::Complex<f32>`).
The embedding replaces finite `f32` values by exact rationals and keeps NaN as an
explicit extra point, since the classifier's control flow inspects NaN and exact
(in)equality.  Overflow to infinity is idealized away (no input exercised here
overflows), and `f32` square root is replaced by a strictly monotone surrogate on
the nonnegatives: the program only ever compares the results of `distance`, never
adds or prints them, and any strictly monotone function yields the same
comparisons, equalities and ties as the true square root on exact values.
-/

/-- Scalar model of `f32`: an exact rational, or NaN.  NaN propagates through
arithmetic, compares false under `<` and `==`, as in IEEE semantics. -/
inductive F where
  | nan : F
  | val : ℚ → F
deriving DecidableEq

namespace F

def add : F → F → F
  | val a, val b => val (a + b)
  | _, _ => nan

def sub : F → F → F
  | val a, val b => val (a - b)
  | _, _ => nan

def mul : F → F → F
  | val a, val b => val (a * b)
  | _, _ => nan

/-- Division.  The divisor-zero case yields NaN; in the source the only division
(the Newton step) is guarded by `yd == Complex::zero()`, so a zero divisor with
finite components is unreachable (see `try_point_go`). -/
def div : F → F → F
  | val a, val b => if b = 0 then nan else val (a / b)
  | _, _ => nan

def neg : F → F
  | val a => val (-a)
  | nan => nan

/-- Model of `f32` `<`: false whenever either side is NaN. -/
def lt : F → F → Bool
  | val a, val b => decide (a < b)
  | _, _ => false

/-- Model of `f32` `==`: false whenever either side is NaN. -/
def feq : F → F → Bool
  | val a, val b => decide (a = b)
  | _, _ => false

def isNan : F → Bool
  | nan => true
  | val _ => false

/-- Model of `f32::sqrt`, given by a strictly monotone surrogate (the identity) on
nonnegative values; negative and NaN inputs map to NaN as in IEEE. -/
def sqrt : F → F
  | nan => nan
  | val q => if q < 0 then nan else val q

end F

/-- Model of `num::complex::Complex<f32>`: a pair of `F` components. -/
structure CF where
  re : F
  im : F
deriving DecidableEq

namespace CF

def zero : CF := ⟨F.val 0, F.val 0⟩

def one : CF := ⟨F.val 1, F.val 0⟩

def add (a b : CF) : CF := ⟨a.re.add b.re, a.im.add b.im⟩

def sub (a b : CF) : CF := ⟨a.re.sub b.re, a.im.sub b.im⟩

def neg (a : CF) : CF := ⟨a.re.neg, a.im.neg⟩

/-- Complex multiplication, as in the `num` crate:
`(a.re*b.re - a.im*b.im, a.re*b.im + a.im*b.re)`. -/
def mul (a b : CF) : CF :=
  ⟨(a.re.mul b.re).sub (a.im.mul b.im), (a.re.mul b.im).add (a.im.mul b.re)⟩

/-- Model of `Complex::norm_sqr`. -/
def normSqr (a : CF) : F := (a.re.mul a.re).add (a.im.mul a.im)

/-- Complex division, as in the `num` crate: componentwise division of
`a * conj b` by `norm_sqr b`. -/
def div (a b : CF) : CF :=
  ⟨((a.re.mul b.re).add (a.im.mul b.im)).div b.normSqr,
   ((a.im.mul b.re).sub (a.re.mul b.im)).div b.normSqr⟩

/-- Derived `PartialEq` on `Complex<f32>`: componentwise `f32` equality. -/
def ceq (a b : CF) : Bool := a.re.feq b.re && a.im.feq b.im

/-- Model of `Complex::is_nan`: either component is NaN. -/
def isNan (a : CF) : Bool := a.re.isNan || a.im.isNan

/-- Model of `Complex::powu`.  The crate exponentiates by squaring; on this model
(multiplication is associative-commutative with unit, NaN absorbing for
positive exponents) that computes the same value as the naive product. -/
def powu (c : CF) : Nat → CF
  | 0 => one
  | n + 1 => mul c (powu c n)

end CF

/-- Model of `Polynom`: coefficient list indexed by ascending power (src line 26). -/
abbrev Polynom := List CF

/-- One `res.cs[i+j] += v` step of `mul_assign`. -/
def accumAt (res : List CF) (k : Nat) (v : CF) : List CF :=
  res.set k ((res.getD k CF.zero).add v)

/-- Model of `MulAssign for Polynom` (src lines 30-42): allocate
`self.len - 1 + rhs.len - 1 + 1` zeros, then accumulate `self[i] * rhs[j]`
into slot `i + j`.  (Subtraction is ℕ-truncated; the source never multiplies
an empty coefficient vector.) -/
def mul_assign (a b : List CF) : List CF :=
  (List.range a.length).foldl
    (fun res i =>
      (List.range b.length).foldl
        (fun r j => accumAt r (i + j) ((a.getD i CF.zero).mul (b.getD j CF.zero))) res)
    (List.replicate (a.length - 1 + b.length - 1 + 1) CF.zero)

/-- Model of `Polynom::at` (src lines 55-61): `res += cs[i] * coord.powu(i)`.
(`at` is a reserved word in Lean.) -/
def polyAt (p : List CF) (coord : CF) : CF :=
  (List.range p.length).foldl
    (fun res i => res.add ((p.getD i CF.zero).mul (coord.powu i))) CF.zero

/-- Model of `Polynom::from_root` (src lines 63-65): coefficient vector `[1, -root]`,
i.e. the polynomial `1 - root * x` under the ascending-power indexing of
`Polynom::at`. -/
def from_root (root : CF) : List CF := [CF.one, root.neg]

/-- Model of `Polynom::from_roots` (src lines 67-75): start from `[1]` and
`mul_assign` by `from_root roots[i]` for each root in order. -/
def from_roots (roots : List CF) : List CF :=
  roots.foldl (fun pol r => mul_assign pol (from_root r)) [CF.one]

/-- Model of `Complex::new((i + 1) as f32, 0.0)`. -/
def natCF (n : Nat) : CF := ⟨F.val n, F.val 0⟩

/-- Model of `Polynom::derivative` (src lines 77-84): `res[i] = (i+1) * cs[i+1]` for
`i < len - 1`, then drop the last entry.  The in-place loop reads each `cs[i+1]`
before overwriting it, so it equals this map over the original coefficients. -/
def derivative (p : List CF) : List CF :=
  (List.range (p.length - 1)).map (fun i => (natCF (i + 1)).mul (p.getD (i + 1) CF.zero))

/-- Model of `distance` (src lines 87-90): Euclidean norm of `b - a`,
`(d.re^2 + d.im^2).sqrt()`. -/
def distance (a b : CF) : F :=
  ((b.sub a).re.mul (b.sub a).re).add ((b.sub a).im.mul (b.sub a).im) |>.sqrt

/-- The `dists` vector of `try_point` (src line 107). -/
def distsOf (cur : CF) (roots : List CF) : List F :=
  roots.map (fun r => distance cur r)

/-- The nearest-root scan of `try_point` (src lines 107-116):
`min = dists.first().unwrap()` (`none` models the unwrap panic on an empty
vector), then a strict `<` scan over indices `1..len` tracking `(index, min)`. -/
def nearestIndex (dists : List F) : Option Nat :=
  match dists.head? with
  | none => none
  | some first =>
    some (((List.range' 1 (dists.length - 1)).foldl
      (fun st i => if (dists.getD i F.nan).lt st.2 then (i, dists.getD i F.nan) else st)
      (0, first)).1)

/-- The inner scan `for i in 0..roots.len() { if roots[i] == nc { return i } }`
(src lines 101-105): index of the first root exactly equal to `nc`. -/
def findRootIdx : List CF → CF → Option Nat
  | [], _ => none
  | r :: rest, nc => if r.ceq nc then some 0 else (findRootIdx rest nc).map (· + 1)

/-- Constant `STEPS` (src line 14). -/
def STEPS : Nat := 20

/-- The bounded Newton loop of `try_point` (src lines 92-117), with the
remaining step count as fuel.  Exhausted fuel or a stall (`yd == 0` or NaN
iterate) falls through to the nearest-root scan. -/
def try_point_go (roots : List CF) (pol der : List CF) : Nat → CF → Option Nat
  | 0, cur => nearestIndex (distsOf cur roots)
  | fuel + 1, cur =>
    let yp := polyAt pol cur
    let yd := polyAt der cur
    if yd.ceq CF.zero || cur.isNan then
      nearestIndex (distsOf cur roots)
    else
      let nc := cur.sub (yp.div yd)
      match findRootIdx roots nc with
      | some i => some i
      | none => try_point_go roots pol der fuel nc

/-- Model of `try_point` (src lines 92-117).  `none` models the `unwrap` panic, which
C4 shows is unreachable for a non-empty root set. -/
def try_point (roots pol der : List CF) (c : CF) : Option Nat :=
  try_point_go roots pol der STEPS c

/-- Constant `PPX` (src line 11). -/
def PPX : Nat := 100

/-- Constant `WIDTH` (src line 12). -/
def WIDTH : Nat := 8 * PPX

/-- Constant `HEIGHT` (src line 13). -/
def HEIGHT : Nat := 6 * PPX

/-- The startup validation of `main` (src lines 146-147): the two `assert!`s.
`true` means both asserts pass and the run proceeds to rendering. -/
def startup_check (roots : List CF) (colors : List Nat) : Bool :=
  decide (roots.length ≠ 0) && decide (roots.length ≤ colors.length)

/-- The integer interval `[a, b)`, as iterated by Rust `a..b` (src line 156). -/
def intRange (a b : ℤ) : List ℤ :=
  (List.range (b - a).toNat).map (fun (k : ℕ) => a + (k : ℤ))

/-- The rendering double loop of `main` (src lines 152-166): canvas of
`w * h` zeros; for `y in -my..my`, `x in -mx..mx` classify the sample point
`(x / ppu, y / ppu)` and store `colors[c]` at `(y + my) * w + (mx + x)`.
Pixel values are `u32`, modelled as ℕ. -/
def render (roots pol der : List CF) (colors : List Nat) (w h ppu : Nat) : List Nat :=
  let mx : ℤ := (w : ℤ) / 2
  let my : ℤ := (h : ℤ) / 2
  (intRange (-my) my).foldl
    (fun canvas (y : ℤ) =>
      (intRange (-mx) mx).foldl
        (fun canvas (x : ℤ) =>
          let c := (try_point roots pol der
            ⟨F.val ((x : ℚ) / (ppu : ℚ)), F.val ((y : ℚ) / (ppu : ℚ))⟩).getD 0
          canvas.set (((y + my) * (w : ℤ) + (mx + x) : ℤ)).toNat (colors.getD c 0))
        canvas)
    (List.replicate (w * h) 0)

/-- Model of `to_rgb` (src lines 18-23): high-to-low bytes of a packed pixel. -/
def to_rgb (p : Nat) : Nat × Nat × Nat :=
  ((p >>> 16) &&& 0xff, (p >>> 8) &&& 0xff, (p >>> 0) &&& 0xff)

/-- The three bytes `[r, g, b]` written per pixel (src line 126). -/
def rgbBytes (p : Nat) : List Nat :=
  [(to_rgb p).1, (to_rgb p).2.1, (to_rgb p).2.2]

/-- ASCII decimal digits of a natural number, as `write!("{}") ` emits them. -/
def asciiNat (n : Nat) : List Nat := (Nat.toDigits 10 n).map Char.toNat

/-- The three header writes of `write_ppm` (src lines 120-122):
`"P6\n"`, `"<w> <h>\n"`, `"255\n"` as bytes. -/
def ppmHeader (w h : Nat) : List Nat :=
  ([80, 54, 10] ++ (asciiNat w ++ [32] ++ asciiNat h ++ [10])) ++ [50, 53, 53, 10]

/-- The pixel payload of `write_ppm`, flattened: row-major, three bytes per
pixel. -/
def ppmBody (w h : Nat) (canv : List Nat) : List Nat :=
  (List.range h).flatMap (fun y =>
    (List.range w).flatMap (fun x => rgbBytes (canv.getD (y * w + x) 0)))

/-- Model of `write_ppm` (src lines 119-130), with the byte stream made explicit: the
header writes followed by the double loop appending `[r, g, b]` for
`canv[y * w + x]`.  The source fixes `w = WIDTH`, `h = HEIGHT`. -/
def write_ppm (w h : Nat) (canv : List Nat) : List Nat :=
  (List.range h).foldl
    (fun out y =>
      (List.range w).foldl
        (fun out2 x => out2 ++ rgbBytes (canv.getD (y * w + x) 0)) out)
    (ppmHeader w h)

/-! ## Claim C1 -/

/-- C1: the claimed property fails on the code.  `from_root` stores the
coefficient vector `[1, -root]`, which under the ascending-power indexing of
`Polynom::at` is the polynomial `1 - root * x` (vanishing at `1/root`), not the
monic factor `x - root`.  For the root list `[2]`, evaluating the constructed
polynomial at the root `2` yields `1 - 2 * 2 = -3`, not (approximately) zero. -/
theorem c1_from_roots_eval_at_root_ne_zero :
    polyAt (from_roots [⟨F.val 2, F.val 0⟩]) ⟨F.val 2, F.val 0⟩ = ⟨F.val (-3), F.val 0⟩ ∧
      (⟨F.val (-3), F.val 0⟩ : CF) ≠ CF.zero := by
  constructor
  · with_unfolding_all rfl
  · with_unfolding_all decide

/-! ## Claim C6 -/

/-- C6: the claimed property fails on the code.  With the distinct root list
`[0, 1]`, starting the classifier exactly at root `0` (index 0): the polynomial
value there is `1` (not zero, because `from_root` builds `1 - root * x`), the
derivative value is `-1` (nonzero, so no stall), and the Newton step lands
exactly on the other root `1`, so the exact-match branch returns index 1 —
not the claimed index 0. -/
theorem c6_exact_root_start_misclassified :
    try_point [⟨F.val 0, F.val 0⟩, ⟨F.val 1, F.val 0⟩]
        (from_roots [⟨F.val 0, F.val 0⟩, ⟨F.val 1, F.val 0⟩])
        (derivative (from_roots [⟨F.val 0, F.val 0⟩, ⟨F.val 1, F.val 0⟩]))
        ⟨F.val 0, F.val 0⟩ = some 1 ∧
      polyAt (from_roots [⟨F.val 0, F.val 0⟩, ⟨F.val 1, F.val 0⟩]) ⟨F.val 0, F.val 0⟩ =
        CF.one := by
  constructor
  · with_unfolding_all rfl
  · with_unfolding_all rfl

/-! ## Claim C7 -/

/-- C7: the degree half of the claim holds on this input (one root, coefficient
vector of length two), but the leading coefficient is `-2` — the product of the
negated roots — not `1`; it is the **constant** coefficient that equals `1`,
because `from_root` stores `[1, -root]` in ascending powers. -/
theorem c7_leading_coefficient_not_one :
    from_roots [⟨F.val 2, F.val 0⟩] = [CF.one, ⟨F.val (-2), F.val 0⟩] ∧
      (⟨F.val (-2), F.val 0⟩ : CF) ≠ CF.one := by
  constructor
  · with_unfolding_all rfl
  · with_unfolding_all decide

/-! ## Claim C8 -/

/-- C8 counterexample: startup validation does **not** reject out-of-window
roots.  The root `100 + 0i` lies far outside the visible half-extent
`WIDTH / (2 * PPX) = 4`, yet both `assert!`s pass (the root set is non-empty
and the palette is long enough), so rendering proceeds. -/
theorem c8_out_of_window_root_accepted :
    startup_check [⟨F.val 100, F.val 0⟩] [0] = true ∧
      ¬ (|(100 : ℚ)| ≤ (WIDTH : ℚ) / (2 * (PPX : ℚ))) := by
  constructor
  · with_unfolding_all rfl
  · with_unfolding_all decide

/-- C8 amended: the startup validation of `main` consists of exactly two
checks — the root set is non-empty and the palette is at least as long as the
root set.  No bound on root coordinates is checked. -/
theorem c8_startup_check_iff (roots : List CF) (colors : List Nat) :
    startup_check roots colors = true ↔
      roots ≠ [] ∧ roots.length ≤ colors.length := by
  constructor
  · intro h
    simp only [startup_check, Bool.and_eq_true, decide_eq_true_eq] at h
    exact ⟨fun he => h.1 (by simp [he]), h.2⟩
  · rintro ⟨h1, h2⟩
    simp only [startup_check, Bool.and_eq_true, decide_eq_true_eq]
    exact ⟨fun he => h1 (List.length_eq_zero.mp he), h2⟩

/-! ## Helper lemmas on `F` comparisons -/

lemma F.lt_nan_right (a : F) : a.lt F.nan = false := by cases a <;> rfl

lemma F.lt_irrefl (a : F) : a.lt a = false := by
  cases a with
  | nan => rfl
  | val q => simp [F.lt]

lemma F.lt_trans {a b c : F} (h1 : a.lt b = true) (h2 : b.lt c = true) :
    a.lt c = true := by
  cases a <;> cases b <;> cases c <;> simp_all [F.lt]
  exact h1.trans h2

/-! ## Totality of the classifier (C4 machinery) -/

lemma nearestIndex_scan_lt (dists : List F) (l : List Nat) (st : Nat × F)
    (hst : st.1 < dists.length) (hl : ∀ i ∈ l, i < dists.length) :
    (l.foldl
      (fun st i => if (dists.getD i F.nan).lt st.2 then (i, dists.getD i F.nan) else st)
      st).1 < dists.length := by
  induction l generalizing st with
  | nil => exact hst
  | cons a l ih =>
    simp only [List.foldl_cons]
    apply ih
    · dsimp only
      split
      · exact hl a (List.mem_cons_self a l)
      · exact hst
    · intro i hi
      exact hl i (List.mem_cons_of_mem a hi)

lemma nearestIndex_some (dists : List F) (h : dists ≠ []) :
    ∃ r, nearestIndex dists = some r ∧ r < dists.length := by
  rcases dists with _ | ⟨d, rest⟩
  · exact absurd rfl h
  · refine ⟨_, rfl, ?_⟩
    exact nearestIndex_scan_lt _ _ _ (by simp) (fun i hi => by
      have h2 := List.mem_range'_1.mp hi
      simp only [List.length_cons] at h2 ⊢
      omega)

lemma findRootIdx_lt {roots : List CF} {nc : CF} {i : Nat}
    (h : findRootIdx roots nc = some i) : i < roots.length := by
  induction roots generalizing i with
  | nil => simp [findRootIdx] at h
  | cons r rest ih =>
    simp only [findRootIdx] at h
    split at h
    · simp only [Option.some.injEq] at h
      subst h
      simp
    · rcases Option.map_eq_some'.mp h with ⟨j, hj, rfl⟩
      have h3 := ih hj
      simp only [List.length_cons]
      omega

lemma distsOf_length (cur : CF) (roots : List CF) :
    (distsOf cur roots).length = roots.length := by simp [distsOf]

lemma distsOf_ne_nil {cur : CF} {roots : List CF} (h : roots ≠ []) :
    distsOf cur roots ≠ [] := by
  simp only [distsOf, ne_eq, List.map_eq_nil_iff]
  exact h

lemma try_point_go_total (roots pol der : List CF) (h : roots ≠ []) :
    ∀ fuel cur, ∃ i, try_point_go roots pol der fuel cur = some i ∧ i < roots.length := by
  intro fuel
  induction fuel with
  | zero =>
    intro cur
    obtain ⟨r, hr, hlt⟩ := nearestIndex_some (distsOf cur roots) (distsOf_ne_nil h)
    exact ⟨r, hr, by rwa [distsOf_length] at hlt⟩
  | succ fuel ih =>
    intro cur
    simp only [try_point_go]
    by_cases hbr : ((polyAt der cur).ceq CF.zero || cur.isNan) = true
    · simp only [hbr, if_true]
      obtain ⟨r, hr, hlt⟩ := nearestIndex_some (distsOf cur roots) (distsOf_ne_nil h)
      exact ⟨r, hr, by rwa [distsOf_length] at hlt⟩
    · simp only [hbr, if_false]
      rcases hf : findRootIdx roots (cur.sub ((polyAt pol cur).div (polyAt der cur))) with
        _ | i
      · simpa [hf] using ih _
      · exact ⟨i, by simp [hf], findRootIdx_lt hf⟩

/-! ## Claim C4 -/

/-- C4: for any root set that is non-empty, any polynomial, derivative and
start point (finite or not), `try_point` returns `some` index strictly below
the root-set length: the fuel-bounded loop always terminates within `STEPS`
iterations, the `unwrap` of the first distance cannot panic (the distance
vector is as long as the root set), and both the exact-match return and the
nearest-root fallback produce in-range indices. -/
theorem c4_try_point_total (roots pol der : List CF) (c : CF) (h : roots ≠ []) :
    ∃ i, try_point roots pol der c = some i ∧ i < roots.length :=
  try_point_go_total roots pol der h STEPS c

/-- C4 witness at a concrete configuration. -/
theorem c4_try_point_total_witness :
    ([⟨F.val 0, F.val 0⟩] : List CF) ≠ [] ∧
      ∃ i, try_point [⟨F.val 0, F.val 0⟩] [CF.one] [] ⟨F.val 5, F.val 5⟩ = some i ∧
        i < ([⟨F.val 0, F.val 0⟩] : List CF).length :=
  ⟨by simp, c4_try_point_total [⟨F.val 0, F.val 0⟩] [CF.one] [] ⟨F.val 5, F.val 5⟩ (by simp)⟩

/-! ## NaN fallback (C10 machinery) -/

lemma distance_nan {c : CF} (r : CF) (h : c.isNan = true) : distance c r = F.nan := by
  rcases c with ⟨cre, cim⟩
  rcases r with ⟨rre, rim⟩
  cases cre <;> cases cim <;> cases rre <;> cases rim <;>
    simp_all [distance, CF.sub, F.sub, F.mul, F.add, F.sqrt, CF.isNan, F.isNan]

lemma nan_scan_fixed (dists : List F) (l : List Nat) :
    (l.foldl
      (fun st i => if (dists.getD i F.nan).lt st.2 then (i, dists.getD i F.nan) else st)
      ((0 : Nat), F.nan)) = (0, F.nan) := by
  induction l with
  | nil => rfl
  | cons a l ih => simp only [List.foldl_cons, F.lt_nan_right, if_false]; exact ih

lemma nearestIndex_all_nan {dists : List F} (hne : dists ≠ [])
    (hnan : ∀ d ∈ dists, d = F.nan) : nearestIndex dists = some 0 := by
  rcases dists with _ | ⟨d, rest⟩
  · exact absurd rfl hne
  · have hd : d = F.nan := hnan d (by simp)
    subst hd
    simp only [nearestIndex, List.head?_cons]
    rw [nan_scan_fixed]

/-! ## Claim C10 -/

/-- C10: whenever the iterate is NaN at loop entry (in particular when the
start point itself is NaN), the stall condition breaks out of the very first
step, every distance computed from the NaN point is NaN, a NaN distance is
never strictly below the running minimum, and the fallback therefore returns
the initial index 0. -/
theorem c10_nan_start_returns_zero (roots pol der : List CF) (c : CF)
    (hnan : c.isNan = true) (h : roots ≠ []) :
    try_point roots pol der c = some 0 := by
  show try_point_go roots pol der (19 + 1) c = some 0
  simp only [try_point_go, hnan, Bool.or_true, if_true]
  apply nearestIndex_all_nan (distsOf_ne_nil h)
  intro d hd
  simp only [distsOf, List.mem_map] at hd
  rcases hd with ⟨r, _, rfl⟩
  exact distance_nan r hnan

/-- C10 witness at a concrete configuration. -/
theorem c10_nan_start_returns_zero_witness :
    (⟨F.nan, F.val 0⟩ : CF).isNan = true ∧
      ([⟨F.val 1, F.val 0⟩, ⟨F.val 2, F.val 0⟩] : List CF) ≠ [] ∧
      try_point [⟨F.val 1, F.val 0⟩, ⟨F.val 2, F.val 0⟩] [CF.one] [CF.one]
        ⟨F.nan, F.val 0⟩ = some 0 :=
  ⟨rfl, by simp,
    c10_nan_start_returns_zero [⟨F.val 1, F.val 0⟩, ⟨F.val 2, F.val 0⟩] [CF.one] [CF.one]
      ⟨F.nan, F.val 0⟩ rfl (by simp)⟩

/-! ## Tie-break of the nearest-root scan (C5 machinery) -/

lemma F.eq_of_not_lt {a b : F} (ha : a ≠ F.nan) (hb : b ≠ F.nan)
    (h1 : a.lt b = false) (h2 : b.lt a = false) : a = b := by
  cases a <;> cases b <;> simp_all [F.lt]
  exact le_antisymm h2 h1

lemma getD_mem_of_lt {α : Type} {l : List α} {d : α} {n : Nat} (h : n < l.length) :
    l.getD n d ∈ l := by
  rw [List.getD_eq_getElem?_getD, List.getElem?_eq_getElem h]
  exact List.getElem_mem h

/-- The running `(index, min)` pair after scanning indices `1..n+1` of the
nearest-root loop. -/
def nearScan (dists : List F) (n : Nat) (first : F) : Nat × F :=
  (List.range' 1 n).foldl
    (fun st i => if (dists.getD i F.nan).lt st.2 then (i, dists.getD i F.nan) else st)
    (0, first)

lemma nearestIndex_eq_nearScan (d : F) (rest : List F) :
    nearestIndex (d :: rest) = some (nearScan (d :: rest) ((d :: rest).length - 1) d).1 :=
  rfl

lemma nearScan_invariant (dists : List F) (n : Nat) :
    (nearScan dists n (dists.getD 0 F.nan)).2
        = dists.getD (nearScan dists n (dists.getD 0 F.nan)).1 F.nan ∧
      (nearScan dists n (dists.getD 0 F.nan)).1 ≤ n ∧
      (∀ k ≤ n, ((dists.getD k F.nan).lt (nearScan dists n (dists.getD 0 F.nan)).2) = false) ∧
      (∀ k < (nearScan dists n (dists.getD 0 F.nan)).1,
        dists.getD k F.nan ≠ (nearScan dists n (dists.getD 0 F.nan)).2) := by
  induction n with
  | zero =>
    have h0 : nearScan dists 0 (dists.getD 0 F.nan) = (0, dists.getD 0 F.nan) := rfl
    rw [h0]
    refine ⟨rfl, le_refl 0, ?_, ?_⟩
    · intro k hk
      have hk0 : k = 0 := by omega
      subst hk0
      exact F.lt_irrefl _
    · intro k hk
      simp at hk
  | succ n ih =>
    obtain ⟨ih1, ih2, ih3, ih4⟩ := ih
    have hstep : nearScan dists (n + 1) (dists.getD 0 F.nan)
        = (if (dists.getD (1 + n) F.nan).lt (nearScan dists n (dists.getD 0 F.nan)).2
            then (1 + n, dists.getD (1 + n) F.nan)
            else nearScan dists n (dists.getD 0 F.nan)) := by
      unfold nearScan
      rw [List.range'_concat, List.foldl_append]
      simp only [one_mul, List.foldl_cons, List.foldl_nil]
    by_cases hlt : (dists.getD (1 + n) F.nan).lt (nearScan dists n (dists.getD 0 F.nan)).2
        = true
    · rw [hstep, if_pos hlt]
      refine ⟨rfl, by omega, ?_, ?_⟩
      · intro k hk
        rcases Nat.lt_or_ge k (n + 1) with hk1 | hk1
        · cases hc : (dists.getD k F.nan).lt (dists.getD (1 + n) F.nan) with
          | false => rfl
          | true =>
            have h5 := F.lt_trans hc hlt
            have h6 := ih3 k (by omega)
            rw [h5] at h6
            exact h6
        · have hk2 : k = 1 + n := by omega
          rw [hk2]
          exact F.lt_irrefl _
      · intro k hk
        have hk1 : k ≤ n := by omega
        intro hcontra
        have h6 := ih3 k hk1
        rw [hcontra, hlt] at h6
        simp at h6
    · rw [hstep, if_neg hlt]
      refine ⟨ih1, by omega, ?_, ih4⟩
      intro k hk
      rcases Nat.lt_or_ge k (n + 1) with hk1 | hk1
      · exact ih3 k (by omega)
      · have hk2 : k = 1 + n := by omega
        rw [hk2]
        exact Bool.not_eq_true _ |>.mp hlt

/-! ## Claim C5 -/

/-- C5: in the nearest-root fallback, the scan over the distance vector uses
a strict less-than against the running minimum, so (for NaN-free distances)
the returned index attains the minimal distance, it is at most the index of
any minimal tie, and no earlier index attains the same distance — i.e. the
first root at the minimal distance wins and a later root at an equal distance
never replaces it. -/
theorem c5_fallback_tie_break (roots : List CF) (cur : CF) (i j : Nat)
    (hij : i < j) (hj : j < roots.length)
    (hnonan : ∀ d ∈ distsOf cur roots, d ≠ F.nan)
    (heq : (distsOf cur roots).getD i F.nan = (distsOf cur roots).getD j F.nan)
    (hmin : ∀ k < roots.length,
      ((distsOf cur roots).getD k F.nan).lt ((distsOf cur roots).getD i F.nan) = false) :
    ∃ r, nearestIndex (distsOf cur roots) = some r ∧ r ≤ i ∧
      (distsOf cur roots).getD r F.nan = (distsOf cur roots).getD i F.nan ∧
      ∀ k < r, (distsOf cur roots).getD k F.nan ≠ (distsOf cur roots).getD i F.nan := by
  have hlen : (distsOf cur roots).length = roots.length := distsOf_length cur roots
  rcases hd : distsOf cur roots with _ | ⟨d, rest⟩
  · rw [hd] at hlen
    simp at hlen
    omega
  · rw [← hd]
    have hne : distsOf cur roots ≠ [] := by rw [hd]; simp
    have hinv := nearScan_invariant (distsOf cur roots) ((distsOf cur roots).length - 1)
    obtain ⟨inv1, inv2, inv3, inv4⟩ := hinv
    set st := nearScan (distsOf cur roots) ((distsOf cur roots).length - 1)
      ((distsOf cur roots).getD 0 F.nan) with hst
    have hidx : nearestIndex (distsOf cur roots) = some st.1 := by
      conv_lhs => rw [hd]
      rw [nearestIndex_eq_nearScan, hst, hd]
      rfl
    have hr_lt : st.1 < roots.length := by omega
    have hi_lt : i < roots.length := by omega
    have hdr_eq : (distsOf cur roots).getD st.1 F.nan = (distsOf cur roots).getD i F.nan := by
      apply F.eq_of_not_lt
      · exact hnonan _ (getD_mem_of_lt (by omega))
      · exact hnonan _ (getD_mem_of_lt (by omega))
      · exact hmin st.1 hr_lt
      · have h7 := inv3 i (by omega)
        rwa [inv1] at h7
    have hri : st.1 ≤ i := by
      by_contra hcon
      push_neg at hcon
      exact (inv4 i hcon) (by rw [inv1, hdr_eq])
    exact ⟨st.1, hidx, hri, hdr_eq,
      fun k hk hcontra => (inv4 k hk) (by rw [hcontra, inv1, hdr_eq])⟩

/-- C5 witness: roots `1` and `-1` are equidistant from the stalled iterate
`2i`; the scan returns index 0, the first of the tie. -/
theorem c5_fallback_tie_break_witness :
    (0 : Nat) < 1 ∧
      1 < ([⟨F.val 1, F.val 0⟩, ⟨F.val (-1), F.val 0⟩] : List CF).length ∧
      (∀ d ∈ distsOf ⟨F.val 0, F.val 2⟩ [⟨F.val 1, F.val 0⟩, ⟨F.val (-1), F.val 0⟩],
        d ≠ F.nan) ∧
      (distsOf ⟨F.val 0, F.val 2⟩ [⟨F.val 1, F.val 0⟩, ⟨F.val (-1), F.val 0⟩]).getD 0 F.nan
        = (distsOf ⟨F.val 0, F.val 2⟩
            [⟨F.val 1, F.val 0⟩, ⟨F.val (-1), F.val 0⟩]).getD 1 F.nan ∧
      ∃ r, nearestIndex (distsOf ⟨F.val 0, F.val 2⟩
            [⟨F.val 1, F.val 0⟩, ⟨F.val (-1), F.val 0⟩]) = some r ∧
        r ≤ 0 ∧
        (distsOf ⟨F.val 0, F.val 2⟩
            [⟨F.val 1, F.val 0⟩, ⟨F.val (-1), F.val 0⟩]).getD r F.nan
          = (distsOf ⟨F.val 0, F.val 2⟩
              [⟨F.val 1, F.val 0⟩, ⟨F.val (-1), F.val 0⟩]).getD 0 F.nan ∧
        ∀ k < r, (distsOf ⟨F.val 0, F.val 2⟩
              [⟨F.val 1, F.val 0⟩, ⟨F.val (-1), F.val 0⟩]).getD k F.nan
          ≠ (distsOf ⟨F.val 0, F.val 2⟩
              [⟨F.val 1, F.val 0⟩, ⟨F.val (-1), F.val 0⟩]).getD 0 F.nan := by
  have hnonan : ∀ d ∈ distsOf ⟨F.val 0, F.val 2⟩ [⟨F.val 1, F.val 0⟩, ⟨F.val (-1), F.val 0⟩],
      d ≠ F.nan := by with_unfolding_all decide
  have heq : (distsOf ⟨F.val 0, F.val 2⟩
        [⟨F.val 1, F.val 0⟩, ⟨F.val (-1), F.val 0⟩]).getD 0 F.nan
      = (distsOf ⟨F.val 0, F.val 2⟩
          [⟨F.val 1, F.val 0⟩, ⟨F.val (-1), F.val 0⟩]).getD 1 F.nan := by
    with_unfolding_all rfl
  have hmin : ∀ k < ([⟨F.val 1, F.val 0⟩, ⟨F.val (-1), F.val 0⟩] : List CF).length,
      ((distsOf ⟨F.val 0, F.val 2⟩
          [⟨F.val 1, F.val 0⟩, ⟨F.val (-1), F.val 0⟩]).getD k F.nan).lt
        ((distsOf ⟨F.val 0, F.val 2⟩
            [⟨F.val 1, F.val 0⟩, ⟨F.val (-1), F.val 0⟩]).getD 0 F.nan) = false := by
    with_unfolding_all decide
  exact ⟨by decide, by decide, hnonan, heq,
    c5_fallback_tie_break [⟨F.val 1, F.val 0⟩, ⟨F.val (-1), F.val 0⟩] ⟨F.val 0, F.val 2⟩
      0 1 (by decide) (by decide) hnonan heq hmin⟩

/-! ## Multiplication identity (C9 machinery) -/

lemma cf_zero_add_mul_one {x : CF} (h : x.isNan = false) :
    CF.zero.add (x.mul CF.one) = x := by
  rcases x with ⟨a, b⟩
  cases a <;> cases b <;>
    simp_all [CF.isNan, CF.mul, CF.add, CF.one, CF.zero, F.mul, F.add, F.sub, F.isNan]

lemma mul_assign_one (a : List CF) (h1 : 1 ≤ a.length)
    (hnan : ∀ c ∈ a, c.isNan = false) : mul_assign a [CF.one] = a := by
  have key : ∀ k ≤ a.length,
      (List.range k).foldl (fun res i => accumAt res i ((a.getD i CF.zero).mul CF.one))
        (List.replicate a.length CF.zero)
      = a.take k ++ List.replicate (a.length - k) CF.zero := by
    intro k
    induction k with
    | zero => intro _; simp
    | succ k ih =>
      intro hk
      rw [List.range_succ, List.foldl_append, ih (by omega)]
      simp only [List.foldl_cons, List.foldl_nil]
      have hklt : k < a.length := by omega
      have htake : (a.take k).length = k := by
        rw [List.length_take]
        omega
      have hrep : a.length - k = (a.length - (k + 1)) + 1 := by omega
      rw [accumAt]
      have hget : (a.take k ++ List.replicate (a.length - k) CF.zero).getD k CF.zero
          = CF.zero := by
        rw [List.getD_eq_getElem?_getD, List.getElem?_append_right (by omega), htake]
        simp [hrep]
      rw [hget, cf_zero_add_mul_one (hnan _ (getD_mem_of_lt hklt))]
      rw [List.set_append]
      rw [if_neg (by omega), htake]
      rw [hrep, List.replicate_succ, Nat.sub_self, List.set_cons_zero]
      rw [List.take_succ, List.getElem?_eq_getElem hklt]
      have hgetd : a.getD k CF.zero = a[k] := by
        rw [List.getD_eq_getElem?_getD, List.getElem?_eq_getElem hklt]
        rfl
      rw [hgetd, List.append_cons]
      rfl
  have hlen : a.length - 1 + [CF.one].length - 1 + 1 = a.length := by
    simp only [List.length_cons, List.length_nil]
    omega
  rw [mul_assign, hlen]
  have hinner : (fun (res : List CF) (i : Nat) =>
        (List.range [CF.one].length).foldl
          (fun r j => accumAt r (i + j) ((a.getD i CF.zero).mul ([CF.one].getD j CF.zero)))
          res)
      = fun res i => accumAt res i ((a.getD i CF.zero).mul CF.one) := by
    funext res i
    rw [show ([CF.one] : List CF).length = 1 from rfl, show List.range 1 = [0] from rfl]
    simp
  rw [hinner, key a.length (le_refl _)]
  simp

/-! ## Claim C9 -/

/-- C9: multiplying a polynomial of length at least 1 (with NaN-free
coefficients, as every polynomial the program builds has) by
`from_roots [] = [1]` leaves its coefficient sequence unchanged: the
convolution writes `0 + cs[i] * 1` into slot `i`. -/
theorem c9_mul_identity (a : List CF) (h1 : 1 ≤ a.length)
    (hnan : ∀ c ∈ a, c.isNan = false) : mul_assign a (from_roots []) = a := by
  have hfr : from_roots ([] : List CF) = [CF.one] := rfl
  rw [hfr]
  exact mul_assign_one a h1 hnan

/-- C9 witness at a concrete two-coefficient polynomial. -/
theorem c9_mul_identity_witness :
    1 ≤ ([⟨F.val 2, F.val 3⟩, ⟨F.val 0, F.val (-1)⟩] : List CF).length ∧
      (∀ c ∈ ([⟨F.val 2, F.val 3⟩, ⟨F.val 0, F.val (-1)⟩] : List CF), c.isNan = false) ∧
      mul_assign [⟨F.val 2, F.val 3⟩, ⟨F.val 0, F.val (-1)⟩] (from_roots [])
        = [⟨F.val 2, F.val 3⟩, ⟨F.val 0, F.val (-1)⟩] :=
  ⟨by decide, by decide,
    c9_mul_identity [⟨F.val 2, F.val 3⟩, ⟨F.val 0, F.val (-1)⟩] (by decide) (by decide)⟩

/-! ## Encoder structure (C3 machinery) -/

lemma rgbBytes_length (p : Nat) : (rgbBytes p).length = 3 := rfl

lemma foldl_append_eq {α β : Type} (l : List β) (f : β → List α) (init : List α) :
    l.foldl (fun acc b => acc ++ f b) init = init ++ l.flatMap f := by
  induction l generalizing init with
  | nil => simp
  | cons b l ih => simp only [List.foldl_cons, ih, List.flatMap_cons, List.append_assoc]

lemma write_ppm_eq (w h : Nat) (canv : List Nat) :
    write_ppm w h canv = ppmHeader w h ++ ppmBody w h canv := by
  have hfun : (fun (out : List Nat) (y : Nat) =>
        (List.range w).foldl (fun out2 x => out2 ++ rgbBytes (canv.getD (y * w + x) 0)) out)
      = fun out y =>
          out ++ (List.range w).flatMap (fun x => rgbBytes (canv.getD (y * w + x) 0)) := by
    funext out y
    exact foldl_append_eq _ _ _
  rw [write_ppm, hfun, foldl_append_eq]
  rfl

lemma flatMap_length_uniform {α β : Type} (l : List β) (f : β → List α) (k : Nat)
    (h : ∀ b ∈ l, (f b).length = k) : (l.flatMap f).length = l.length * k := by
  induction l with
  | nil => simp
  | cons b l ih =>
    simp only [List.flatMap_cons, List.length_append, List.length_cons]
    rw [h b (by simp), ih (fun c hc => h c (by simp [hc]))]
    ring

lemma ppmBody_length (w h : Nat) (canv : List Nat) :
    (ppmBody w h canv).length = w * h * 3 := by
  rw [ppmBody,
    flatMap_length_uniform _ _ (w * 3)
      (fun y _ => by rw [flatMap_length_uniform _ _ 3 (fun c _ => rgbBytes_length _)]; simp)]
  simp only [List.length_range]
  ring

lemma flatMap_drop_uniform {α : Type} (l : List Nat) (f : Nat → List α) (k : Nat)
    (hk : ∀ b ∈ l, (f b).length = k) :
    ∀ i < l.length,
      (l.flatMap f).drop (k * i) = f (l.getD i 0) ++ (l.drop (i + 1)).flatMap f := by
  induction l with
  | nil =>
    intro i hi
    simp at hi
  | cons b l ih =>
    intro i hi
    cases i with
    | zero => simp [List.flatMap_cons]
    | succ i =>
      simp only [List.flatMap_cons]
      rw [show k * (i + 1) = k + k * i by ring, ← List.drop_drop, ← hk b (by simp),
        List.drop_left]
      rw [hk b (by simp)]
      have hi2 : i < l.length := by
        simp only [List.length_cons] at hi
        omega
      rw [ih (fun c hc => hk c (by simp [hc])) i hi2]
      rfl

lemma ppmBody_pixel (w h : Nat) (canv : List Nat) (x y : Nat) (hx : x < w) (hy : y < h) :
    ((ppmBody w h canv).drop (3 * (y * w + x))).take 3
      = rgbBytes (canv.getD (y * w + x) 0) := by
  rw [ppmBody]
  have hrow : ∀ b ∈ List.range h,
      ((List.range w).flatMap (fun x => rgbBytes (canv.getD (b * w + x) 0))).length
        = w * 3 :=
    fun b _ => by rw [flatMap_length_uniform _ _ 3 (fun c _ => rgbBytes_length _)]; simp
  have hyr : y < (List.range h).length := by simpa using hy
  have hxr : x < (List.range w).length := by simpa using hx
  have hgety : (List.range h).getD y 0 = y := by
    rw [List.getD_eq_getElem?_getD, List.getElem?_eq_getElem hyr]
    simp
  have hgetx : (List.range w).getD x 0 = x := by
    rw [List.getD_eq_getElem?_getD, List.getElem?_eq_getElem hxr]
    simp
  rw [show 3 * (y * w + x) = w * 3 * y + 3 * x by ring, ← List.drop_drop,
    flatMap_drop_uniform (List.range h) _ (w * 3) hrow y hyr, hgety,
    List.drop_append_eq_append_drop]
  have hlen : ((List.range w).flatMap (fun x => rgbBytes (canv.getD (y * w + x) 0))).length
      = w * 3 := by
    rw [flatMap_length_uniform _ _ 3 (fun c _ => rgbBytes_length _)]
    simp
  rw [hlen, show 3 * x - w * 3 = 0 by omega, List.drop_zero,
    flatMap_drop_uniform (List.range w) _ 3 (fun c _ => rgbBytes_length _) x hxr, hgetx,
    List.append_assoc, List.take_append_eq_append_take, rgbBytes_length]
  simp [rgbBytes_length]

/-! ## Claim C3 -/

/-- C3: the encoder emits exactly the bytes of `"P6\n"`, then the ASCII
decimals of width and height separated by a space and ended by a newline,
then `"255\n"`, followed by exactly `w * h * 3` raw bytes with no padding;
the pixel at row-major offset `y * w + x` contributes the three consecutive
bytes `(p >>> 16) &&& 0xff`, `(p >>> 8) &&& 0xff`, `p &&& 0xff`, rows top
first. -/
theorem c3_write_ppm_format (w h : Nat) (canv : List Nat) (x y : Nat)
    (hx : x < w) (hy : y < h) :
    write_ppm w h canv
        = (([80, 54, 10] ++ (asciiNat w ++ [32] ++ asciiNat h ++ [10])) ++ [50, 53, 53, 10])
            ++ ppmBody w h canv ∧
      (ppmBody w h canv).length = w * h * 3 ∧
      ((ppmBody w h canv).drop (3 * (y * w + x))).take 3
        = [(canv.getD (y * w + x) 0 >>> 16) &&& 0xff,
           (canv.getD (y * w + x) 0 >>> 8) &&& 0xff,
           (canv.getD (y * w + x) 0 >>> 0) &&& 0xff] :=
  ⟨write_ppm_eq w h canv, ppmBody_length w h canv, ppmBody_pixel w h canv x y hx hy⟩

/-- C3 witness: the spec's own 2-by-1 example, `[0xFF0000, 0x00FF00]`,
whose serialization is exactly `P6\n2 1\n255\n` followed by the six bytes
`255 0 0 0 255 0`. -/
theorem c3_write_ppm_format_witness :
    (1 < 2 ∧ 0 < 1 ∧
      write_ppm 2 1 [0xFF0000, 0x00FF00]
          = (([80, 54, 10] ++ (asciiNat 2 ++ [32] ++ asciiNat 1 ++ [10])) ++ [50, 53, 53, 10])
              ++ ppmBody 2 1 [0xFF0000, 0x00FF00] ∧
        (ppmBody 2 1 [0xFF0000, 0x00FF00]).length = 2 * 1 * 3 ∧
        ((ppmBody 2 1 [0xFF0000, 0x00FF00]).drop (3 * (0 * 2 + 1))).take 3
          = [(([0xFF0000, 0x00FF00] : List Nat).getD (0 * 2 + 1) 0 >>> 16) &&& 0xff,
             (([0xFF0000, 0x00FF00] : List Nat).getD (0 * 2 + 1) 0 >>> 8) &&& 0xff,
             (([0xFF0000, 0x00FF00] : List Nat).getD (0 * 2 + 1) 0 >>> 0) &&& 0xff]) ∧
      write_ppm 2 1 [0xFF0000, 0x00FF00]
        = [80, 54, 10, 50, 32, 49, 10, 50, 53, 53, 10, 255, 0, 0, 0, 255, 0] :=
  ⟨⟨by decide, by decide, c3_write_ppm_format 2 1 [0xFF0000, 0x00FF00] 1 0 (by decide) (by decide)⟩,
    by with_unfolding_all rfl⟩

/-! ## Rasterizer structure (C2 machinery) -/

lemma foldl_foldl_flatMap {α β γ : Type} (l : List β) (m : β → List γ)
    (g : α → β → γ → α) (init : α) :
    l.foldl (fun s y => (m y).foldl (fun s2 x => g s2 y x) s) init
      = (l.flatMap (fun y => (m y).map (fun x => (y, x)))).foldl
          (fun s p => g s p.1 p.2) init := by
  induction l generalizing init with
  | nil => simp
  | cons b l ih =>
    simp only [List.foldl_cons, List.flatMap_cons, List.foldl_append, List.foldl_map]
    rw [ih]

lemma foldl_set_length {β : Type} (ps : List β) (idx : β → Nat) (v : β → Nat)
    (init : List Nat) :
    (ps.foldl (fun cv q => cv.set (idx q) (v q)) init).length = init.length := by
  induction ps generalizing init with
  | nil => rfl
  | cons p ps ih =>
    simp only [List.foldl_cons]
    rw [ih]
    simp

lemma foldl_set_not_written {β : Type} (ps : List β) (idx : β → Nat) (v : β → Nat)
    (init : List Nat) (k : Nat) (h : ∀ q ∈ ps, idx q ≠ k) :
    (ps.foldl (fun cv q => cv.set (idx q) (v q)) init).getD k 0 = init.getD k 0 := by
  induction ps generalizing init with
  | nil => rfl
  | cons p ps ih =>
    simp only [List.foldl_cons]
    rw [ih _ (fun q hq => h q (by simp [hq]))]
    rw [List.getD_eq_getElem?_getD, List.getD_eq_getElem?_getD,
      List.getElem?_set_ne (h p (by simp))]

lemma foldl_set_written {β : Type} (ps : List β) (idx : β → Nat) (v : β → Nat) :
    ∀ (init : List Nat) (k : Nat) (v0 : Nat), k < init.length →
      (∃ q ∈ ps, idx q = k) → (∀ q ∈ ps, idx q = k → v q = v0) →
      (ps.foldl (fun cv q => cv.set (idx q) (v q)) init).getD k 0 = v0 := by
  induction ps with
  | nil =>
    intro init k v0 _ hex _
    rcases hex with ⟨q, hq, _⟩
    simp at hq
  | cons p ps ih =>
    intro init k v0 hk hex huniq
    simp only [List.foldl_cons]
    by_cases hrest : ∃ q ∈ ps, idx q = k
    · exact ih _ k v0 (by simpa using hk) hrest (fun q hq => huniq q (by simp [hq]))
    · push_neg at hrest
      have hp : idx p = k := by
        rcases hex with ⟨q, hq, hqk⟩
        rcases List.mem_cons.mp hq with rfl | hq2
        · exact hqk
        · exact absurd hqk (hrest q hq2)
      rw [foldl_set_not_written ps idx v _ k hrest]
      rw [List.getD_eq_getElem?_getD, hp, List.getElem?_set_self (by rwa [← hp] at hk ⊢)]
      exact huniq p (by simp) hp

lemma mem_intRange {a b z : ℤ} : z ∈ intRange a b ↔ a ≤ z ∧ z < b := by
  constructor
  · intro hz
    rw [intRange, List.mem_map] at hz
    rcases hz with ⟨k, hk, rfl⟩
    rw [List.mem_range] at hk
    have hk2 := Int.lt_toNat.mp hk
    omega
  · intro hz
    rw [intRange, List.mem_map]
    refine ⟨(z - a).toNat, ?_, ?_⟩
    · rw [List.mem_range]
      omega
    · omega

lemma rowcol_unique {w : Nat} {r u r2 u2 : ℤ} (hu1 : 0 ≤ u) (hu2 : u < (w : ℤ))
    (hv1 : 0 ≤ u2) (hv2 : u2 < (w : ℤ)) (h : r * (w : ℤ) + u = r2 * (w : ℤ) + u2) :
    r = r2 ∧ u = u2 := by
  have hw : (0 : ℤ) ≤ (w : ℤ) := by omega
  have hr : r = r2 := by
    by_contra hne
    rcases lt_or_gt_of_ne hne with hlt | hlt
    · have h2 : (1 : ℤ) ≤ r2 - r := by omega
      have h3 := mul_le_mul_of_nonneg_right h2 hw
      rw [one_mul] at h3
      have h1 : (r2 - r) * (w : ℤ) = u - u2 := by linear_combination - h
      omega
    · have h2 : (1 : ℤ) ≤ r - r2 := by omega
      have h3 := mul_le_mul_of_nonneg_right h2 hw
      rw [one_mul] at h3
      have h1 : (r - r2) * (w : ℤ) = u2 - u := by linear_combination h
      omega
  subst hr
  exact ⟨rfl, by exact add_left_cancel h⟩

lemma render_eq_flat (roots pol der : List CF) (colors : List Nat) (w h ppu : Nat) :
    render roots pol der colors w h ppu
      = ((intRange (-((h : ℤ) / 2)) ((h : ℤ) / 2)).flatMap
          (fun y => (intRange (-((w : ℤ) / 2)) ((w : ℤ) / 2)).map (fun x => (y, x)))).foldl
          (fun cv p =>
            cv.set (((p.1 + (h : ℤ) / 2) * (w : ℤ) + ((w : ℤ) / 2 + p.2)).toNat)
              (colors.getD ((try_point roots pol der
                ⟨F.val ((p.2 : ℚ) / (ppu : ℚ)), F.val ((p.1 : ℚ) / (ppu : ℚ))⟩).getD 0) 0))
          (List.replicate (w * h) 0) := by
  rw [render]
  exact foldl_foldl_flatMap _ _ _ _

/-! ## Claim C2 -/

/-- C2: for even dimensions (the program fixes `WIDTH = 800`, `HEIGHT = 600`)
and any pixel coordinate `(X, Y)` with `X < w`, `Y < h`, the rendering loop
stores `colors[classify(samplePoint)]` at row-major offset `Y * w + X`, where
the sample point is `((X - w/2) / ppu, (Y - h/2) / ppu)` with `w/2`, `h/2`
computed by integer (floor) division. -/
theorem c2_render_pixel (roots pol der : List CF) (colors : List Nat)
    (w h ppu : Nat) (X Y : Nat)
    (hroots : roots ≠ [])
    (hw : w = 2 * (w / 2)) (hh : h = 2 * (h / 2))
    (hX : X < w) (hY : Y < h) :
    ∃ c, try_point roots pol der
        ⟨F.val ((((X : ℤ) - (w : ℤ) / 2 : ℤ) : ℚ) / (ppu : ℚ)),
         F.val ((((Y : ℤ) - (h : ℤ) / 2 : ℤ) : ℚ) / (ppu : ℚ))⟩ = some c ∧
      (render roots pol der colors w h ppu).getD (Y * w + X) 0 = colors.getD c 0 := by
  obtain ⟨c, hc, hclt⟩ := try_point_go_total roots pol der hroots STEPS
      ⟨F.val ((((X : ℤ) - (w : ℤ) / 2 : ℤ) : ℚ) / (ppu : ℚ)),
       F.val ((((Y : ℤ) - (h : ℤ) / 2 : ℤ) : ℚ) / (ppu : ℚ))⟩
  have hc2 : try_point roots pol der _ = some c := hc
  refine ⟨c, hc2, ?_⟩
  rw [render_eq_flat]
  refine foldl_set_written _ _ _ _ _ _ ?_ ?_ ?_
  · rw [List.length_replicate]
    have h1 : Y * w + X < (Y + 1) * w := by
      rw [Nat.succ_mul]
      omega
    have h2 : (Y + 1) * w ≤ h * w := Nat.mul_le_mul_right w hY
    exact lt_of_lt_of_le h1 (h2.trans (Nat.mul_comm h w).le)
  · refine ⟨((Y : ℤ) - (h : ℤ) / 2, (X : ℤ) - (w : ℤ) / 2),
      List.mem_flatMap.mpr ⟨(Y : ℤ) - (h : ℤ) / 2, mem_intRange.mpr (by omega),
        List.mem_map.mpr ⟨(X : ℤ) - (w : ℤ) / 2, mem_intRange.mpr (by omega), rfl⟩⟩, ?_⟩
    have hcast : ((Y : ℤ) - (h : ℤ) / 2 + (h : ℤ) / 2) * (w : ℤ)
        + ((w : ℤ) / 2 + ((X : ℤ) - (w : ℤ) / 2)) = ((Y * w + X : ℕ) : ℤ) := by
      push_cast
      ring
    simp only [hcast, Int.toNat_natCast]
  · intro q hq hqk
    rcases List.mem_flatMap.mp hq with ⟨y, hy, hq2⟩
    rcases List.mem_map.mp hq2 with ⟨x, hx, rfl⟩
    dsimp only at hqk ⊢
    have hy2 := mem_intRange.mp hy
    have hx2 := mem_intRange.mp hx
    have hnn : 0 ≤ (y + (h : ℤ) / 2) * (w : ℤ) + ((w : ℤ) / 2 + x) := by
      have ha : 0 ≤ y + (h : ℤ) / 2 := by omega
      have hb : 0 ≤ (w : ℤ) / 2 + x := by omega
      have hcw : (0 : ℤ) ≤ (w : ℤ) := by omega
      exact add_nonneg (mul_nonneg ha hcw) hb
    have hint : (y + (h : ℤ) / 2) * (w : ℤ) + ((w : ℤ) / 2 + x)
        = (Y : ℤ) * (w : ℤ) + (X : ℤ) := by
      have h4 := congrArg (fun n : ℕ => (n : ℤ)) hqk
      simp only at h4
      rw [Int.toNat_of_nonneg hnn] at h4
      rw [h4]
      push_cast
      ring
    obtain ⟨hy3, hx3⟩ := rowcol_unique (by omega) (by omega) (by omega) (by omega) hint
    have hyv : y = (Y : ℤ) - (h : ℤ) / 2 := by omega
    have hxv : x = (X : ℤ) - (w : ℤ) / 2 := by omega
    subst hyv
    subst hxv
    rw [hc2]
    rfl

/-- C2 witness at a concrete 2-by-2 configuration. -/
theorem c2_render_pixel_witness :
    ([⟨F.val 0, F.val 0⟩] : List CF) ≠ [] ∧ (2 : Nat) = 2 * (2 / 2) ∧
      (1 : Nat) < 2 ∧ (0 : Nat) < 2 ∧
      ∃ c, try_point [⟨F.val 0, F.val 0⟩] [CF.one] []
          ⟨F.val (((((1 : Nat) : ℤ) - ((2 : Nat) : ℤ) / 2 : ℤ) : ℚ) / (((1 : Nat) : ℕ) : ℚ)),
           F.val (((((0 : Nat) : ℤ) - ((2 : Nat) : ℤ) / 2 : ℤ) : ℚ) / (((1 : Nat) : ℕ) : ℚ))⟩
          = some c ∧
        (render [⟨F.val 0, F.val 0⟩] [CF.one] [] [7] 2 2 1).getD (0 * 2 + 1) 0
          = ([7] : List Nat).getD c 0 :=
  ⟨by simp, by decide, by decide, by decide,
    c2_render_pixel [⟨F.val 0, F.val 0⟩] [CF.one] [] [7] 2 2 1 1 0 (by simp) (by decide)
      (by decide) (by decide) (by decide)⟩
